import Mathlib

/-
  Verification of SATCHUIM (src/SATCHUIM/core/Solver.cc), a SAT-based weighted
  itemset miner built on MiniSat.  This file shallowly embeds the solver state
  and the operations the checked claims are about:

  * the trail / assignment machinery: uncheckedEnqueue (Solver.cc:462),
    cancelUntil (Solver.cc:220), cancelAll (Solver.cc:239);
  * the propagation loop of Solver::propagate (Solver.cc:486);
  * the conflict branch of Solver::search (Solver.cc:693);
  * reduceDB (Solver.cc:570) and removeClause (Solver.cc:201);
  * the guiding-path encoder fragments of encodeGuidingPath (Solver.cc:923)
    and add_support_constraints (Solver.cc:1088);
  * luby (Solver.cc:821) and pickBranchLit (Solver.cc:259).

  Machine integers of the C code are modelled as Nat / Int (no overflow is
  reachable in the modelled fragments); C vectors become Lean lists; the
  MiniSat lbool becomes a three-valued inductive.  Fields of the solver that
  none of the modelled operations read or write through (activity, polarity,
  statistics counters) are omitted; the clause arena is a list of clauses
  with a mark bit, clause references (CRef) are indices into it.
-/

namespace SATCHUIM

/-- Three-valued assignment, MiniSat lbool. -/
inductive LBool where
  | ltrue : LBool
  | lfalse : LBool
  | lundef : LBool
deriving DecidableEq, Repr

/-- A literal: a variable index plus a sign bit; sign true is the negative
literal, as in MiniSat. -/
structure Lit where
  v : Nat
  sign : Bool
deriving DecidableEq, Repr

/-- Literal negation. -/
def negLit (p : Lit) : Lit := ⟨p.v, !p.sign⟩

/-- mkLit of MiniSat. -/
def mkLit (v : Nat) (sgn : Bool) : Lit := ⟨v, sgn⟩

/-- Index of a literal into the watch table (MiniSat toInt: 2 v + sign). -/
def litIndex (p : Lit) : Nat := 2 * p.v + (if p.sign then 1 else 0)

/-- Negation on LBool. -/
def negLB : LBool → LBool
  | LBool.ltrue => LBool.lfalse
  | LBool.lfalse => LBool.ltrue
  | LBool.lundef => LBool.lundef

/-- A watcher entry: clause reference plus blocking literal. -/
structure Watcher where
  cref : Nat
  blocker : Lit
deriving DecidableEq, Repr

/-- A stored clause: its literal list and the mark bit set by removeClause. -/
structure Clause where
  lits : List Lit
  mark : Bool
deriving DecidableEq, Repr

/-- The solver state: the fields of Minisat::Solver that the verified claims
touch.  assigns / levels / reasons are indexed by variable, watches by
litIndex, arena by clause reference. -/
structure Solver where
  assigns : List LBool
  levels : List Nat
  reasons : List (Option Nat)
  seen : List Bool
  trail : List Lit
  trail_lim : List Nat
  qhead : Nat
  totalWeight : Int
  hu_wei : List Int
  nbItems : Nat
  nbTrans : Nat
  min_supp : Int
  arena : List Clause
  clauses : List Nat
  learnts : List Nat
  watches : List (List Watcher)
  items : List Lit
  ok : Bool
  diviser_state : Nat
deriving DecidableEq, Repr

/-- Current value of a variable. -/
def valueVar (s : Solver) (v : Nat) : LBool := s.assigns.getD v LBool.lundef

/-- Current value of a literal (assigns[var p] xor sign p). -/
def valueLit (s : Solver) (p : Lit) : LBool :=
  if p.sign then negLB (valueVar s p.v) else valueVar s p.v

/-- decisionLevel() = trail_lim.size(). -/
def decisionLevel (s : Solver) : Nat := s.trail_lim.length

/-- Solver::uncheckedEnqueue (Solver.cc:462): record the assignment, its
reason and level, push the literal on the trail, and subtract the reifier
weight from totalWeight when a reifier variable is set false. -/
def uncheckedEnqueue (p : Lit) (from? : Option Nat) (s : Solver) : Solver :=
  { s with
    assigns := s.assigns.set p.v (if p.sign then LBool.lfalse else LBool.ltrue)
    reasons := s.reasons.set p.v from?
    levels := s.levels.set p.v (decisionLevel s)
    trail := s.trail ++ [p]
    totalWeight := s.totalWeight -
      (if p.sign ∧ s.nbItems + s.nbTrans ≤ p.v then s.hu_wei.getD p.v 0 else 0) }

/-- The un-assignment step of one trail entry inside Solver::cancelUntil
(Solver.cc:222-232): set the variable undefined and add the reifier weight
back to totalWeight when the popped literal was a negative reifier literal.
(The phase-saving and order-heap updates touch only unmodelled fields.) -/
def undoOne (l : Lit) (s : Solver) : Solver :=
  { s with
    assigns := s.assigns.set l.v LBool.lundef
    totalWeight := s.totalWeight +
      (if l.sign ∧ s.nbItems + s.nbTrans ≤ l.v then s.hu_wei.getD l.v 0 else 0) }

/-- Process a popped trail segment from its last element down to its first,
as the downward loop of cancelUntil does. -/
def undoFold (ls : List Lit) (s : Solver) : Solver :=
  ls.foldr (fun l acc => undoOne l acc) s

/-- Solver::cancelUntil (Solver.cc:220): revert to the state at the given
level, un-assigning every trail literal from the end of the trail down to
trail_lim[level], then truncating trail, qhead and trail_lim. -/
def cancelUntil (level : Nat) (s : Solver) : Solver :=
  if level < decisionLevel s then
    let k := s.trail_lim.getD level 0
    { undoFold (s.trail.drop k) s with
      trail := s.trail.take k
      qhead := k
      trail_lim := s.trail_lim.take level }
  else s

/-- Solver::cancelAll (Solver.cc:239): backtrack to an empty trail. -/
def cancelAll (s : Solver) : Solver :=
  { undoFold s.trail s with
    trail := []
    qhead := 0
    trail_lim := [] }

/-- The weight of reifier variables (index at least nbItems + nbTrans) whose
current assignment is not false; the quantity the spec says totalWeight
tracks. -/
def reifWeight (s : Solver) : Int :=
  ∑ v in Finset.range s.assigns.length,
    if s.nbItems + s.nbTrans ≤ v ∧ valueVar s v ≠ LBool.lfalse
    then s.hu_wei.getD v 0 else 0

/-- The weight invariant of the spec. -/
def weightInv (s : Solver) : Prop := s.totalWeight = reifWeight s

/-- Every trail literal is assigned according to its sign and its variable is
in range; this is established by uncheckedEnqueue and maintained by the
solver. -/
def trailConsistent (s : Solver) : Prop :=
  ∀ l ∈ s.trail, l.v < s.assigns.length ∧
    s.assigns.getD l.v LBool.lundef = (if l.sign then LBool.lfalse else LBool.ltrue)

instance (s : Solver) : Decidable (weightInv s) := by
  unfold weightInv; infer_instance

instance (s : Solver) : Decidable (trailConsistent s) := by
  unfold trailConsistent; infer_instance

-- ### generic list helpers

theorem getD_set_eq {α : Type} (l : List α) (i : Nat) (a d : α) (h : i < l.length) :
    (l.set i a).getD i d = a := by
  induction l generalizing i with
  | nil => simp at h
  | cons x xs ih =>
    cases i with
    | zero => simp [List.set, List.getD]
    | succ j =>
      simp only [List.set, List.getD, List.get?] at *
      exact ih j (by simpa using h)

theorem getD_set_ne {α : Type} (l : List α) {i j : Nat} (a : α) (d : α) (h : i ≠ j) :
    (l.set i a).getD j d = l.getD j d := by
  induction l generalizing i j with
  | nil => simp [List.set]
  | cons x xs ih =>
    cases i with
    | zero =>
      cases j with
      | zero => exact absurd rfl h
      | succ j0 => simp [List.set, List.getD]
    | succ i0 =>
      cases j with
      | zero => simp [List.set, List.getD]
      | succ j0 =>
        simp only [List.set, List.getD, List.get?]
        exact ih (fun hc => h (by rw [hc]))

theorem length_set_eq {α : Type} (l : List α) (i : Nat) (a : α) :
    (l.set i a).length = l.length := by
  simp

-- ### the effect of writing one variable on reifWeight

theorem reifWeight_set (s : Solver) (v : Nat) (x : LBool) (hv : v < s.assigns.length) :
    reifWeight { s with assigns := s.assigns.set v x } =
      reifWeight s
      - (if s.nbItems + s.nbTrans ≤ v ∧ valueVar s v ≠ LBool.lfalse
         then s.hu_wei.getD v 0 else 0)
      + (if s.nbItems + s.nbTrans ≤ v ∧ x ≠ LBool.lfalse
         then s.hu_wei.getD v 0 else 0) := by
  have hmem : v ∈ Finset.range s.assigns.length := Finset.mem_range.mpr hv
  unfold reifWeight
  simp only [valueVar, length_set_eq]
  rw [← Finset.add_sum_erase _ _ hmem, ← Finset.add_sum_erase _ _ hmem]
  have herase :
      (∑ w in (Finset.range s.assigns.length).erase v,
        if s.nbItems + s.nbTrans ≤ w ∧ (s.assigns.set v x).getD w LBool.lundef ≠ LBool.lfalse
        then s.hu_wei.getD w 0 else 0)
      = (∑ w in (Finset.range s.assigns.length).erase v,
        if s.nbItems + s.nbTrans ≤ w ∧ s.assigns.getD w LBool.lundef ≠ LBool.lfalse
        then s.hu_wei.getD w 0 else 0) := by
    apply Finset.sum_congr rfl
    intro w hw
    have hne : v ≠ w := fun hc => (Finset.mem_erase.mp hw).1 hc.symm
    rw [getD_set_ne _ _ _ hne]
  rw [herase, getD_set_eq _ _ _ _ hv]
  ring

theorem reifWeight_congr (s t : Solver) (h1 : s.assigns = t.assigns)
    (h2 : s.nbItems = t.nbItems) (h3 : s.nbTrans = t.nbTrans)
    (h4 : s.hu_wei = t.hu_wei) : reifWeight s = reifWeight t := by
  unfold reifWeight valueVar
  rw [h1, h2, h3, h4]

theorem negLB_eq_undef {b : LBool} : negLB b = LBool.lundef ↔ b = LBool.lundef := by
  cases b <;> simp [negLB]

-- ### preservation of the weight invariant

theorem weightInv_uncheckedEnqueue (s : Solver) (p : Lit) (from? : Option Nat)
    (hw : weightInv s) (hu : valueLit s p = LBool.lundef) (hv : p.v < s.assigns.length) :
    weightInv (uncheckedEnqueue p from? s) := by
  have hval : valueVar s p.v = LBool.lundef := by
    unfold valueLit at hu
    rcases h : p.sign with _ | _
    · simpa [h] using hu
    · rw [h] at hu; simp at hu; exact negLB_eq_undef.mp hu
  have hset : reifWeight (uncheckedEnqueue p from? s) =
      reifWeight { s with
        assigns := s.assigns.set p.v (if p.sign then LBool.lfalse else LBool.ltrue) } := by
    apply reifWeight_congr <;> rfl
  unfold weightInv at hw ⊢
  rw [hset, reifWeight_set s p.v _ hv]
  show s.totalWeight -
      (if p.sign ∧ s.nbItems + s.nbTrans ≤ p.v then s.hu_wei.getD p.v 0 else 0) = _
  rw [hw, hval]
  rcases h : p.sign with _ | _ <;> simp [h] <;> split_ifs <;> ring

theorem weightInv_undoOne (s : Solver) (l : Lit)
    (hv : l.v < s.assigns.length)
    (hc : s.assigns.getD l.v LBool.lundef = (if l.sign then LBool.lfalse else LBool.ltrue))
    (hw : weightInv s) : weightInv (undoOne l s) := by
  have hset : reifWeight (undoOne l s) =
      reifWeight { s with assigns := s.assigns.set l.v LBool.lundef } := by
    apply reifWeight_congr <;> rfl
  unfold weightInv at hw ⊢
  rw [hset, reifWeight_set s l.v _ hv]
  show s.totalWeight +
      (if l.sign ∧ s.nbItems + s.nbTrans ≤ l.v then s.hu_wei.getD l.v 0 else 0) = _
  rw [hw]
  unfold valueVar
  rw [hc]
  rcases h : l.sign with _ | _ <;> simp [h] <;> split_ifs <;> ring

theorem undoFold_nil (s : Solver) : undoFold [] s = s := rfl

theorem undoFold_cons (l : Lit) (ls : List Lit) (s : Solver) :
    undoFold (l :: ls) s = undoOne l (undoFold ls s) := rfl

theorem undoFold_assigns_length (ls : List Lit) (s : Solver) :
    (undoFold ls s).assigns.length = s.assigns.length := by
  induction ls with
  | nil => rfl
  | cons l ls ih => rw [undoFold_cons]; simp [undoOne, ih]

theorem undoFold_fixed (ls : List Lit) (s : Solver) :
    (undoFold ls s).nbItems = s.nbItems ∧ (undoFold ls s).nbTrans = s.nbTrans ∧
    (undoFold ls s).hu_wei = s.hu_wei := by
  induction ls with
  | nil => exact ⟨rfl, rfl, rfl⟩
  | cons l ls ih => rw [undoFold_cons]; simpa [undoOne] using ih

theorem undoFold_getD_not_mem (ls : List Lit) (s : Solver) {w : Nat} (d : LBool)
    (h : w ∉ ls.map Lit.v) :
    (undoFold ls s).assigns.getD w d = s.assigns.getD w d := by
  induction ls with
  | nil => rfl
  | cons l ls ih =>
    rw [undoFold_cons]
    have h1 : l.v ≠ w := by
      intro hc; exact h (by simp [← hc])
    have h2 : w ∉ ls.map Lit.v := fun hc => h (by simp; right; simpa using hc)
    show ((undoFold ls s).assigns.set l.v LBool.lundef).getD w d = _
    rw [getD_set_ne _ _ _ h1, ih h2]

theorem weightInv_undoFold (ls : List Lit) (s : Solver)
    (hlen : ∀ l ∈ ls, l.v < s.assigns.length)
    (hc : ∀ l ∈ ls, s.assigns.getD l.v LBool.lundef =
      (if l.sign then LBool.lfalse else LBool.ltrue))
    (hnd : (ls.map Lit.v).Nodup) (hw : weightInv s) : weightInv (undoFold ls s) := by
  induction ls with
  | nil => exact hw
  | cons l ls ih =>
    rw [undoFold_cons]
    have hnd' : (ls.map Lit.v).Nodup := (List.nodup_cons.mp (by simpa using hnd)).2
    have hnm : l.v ∉ ls.map Lit.v := (List.nodup_cons.mp (by simpa using hnd)).1
    have hIH : weightInv (undoFold ls s) :=
      ih (fun x hx => hlen x (List.mem_cons_of_mem _ hx))
         (fun x hx => hc x (List.mem_cons_of_mem _ hx)) hnd'
    apply weightInv_undoOne _ _ _ _ hIH
    · rw [undoFold_assigns_length]; exact hlen l (List.mem_cons_self _ _)
    · rw [undoFold_getD_not_mem _ _ _ hnm]; exact hc l (List.mem_cons_self _ _)

theorem weightInv_cancelUntil (s : Solver) (level : Nat)
    (hw : weightInv s) (htc : trailConsistent s) (hnd : (s.trail.map Lit.v).Nodup) :
    weightInv (cancelUntil level s) := by
  unfold cancelUntil
  split
  · have hsub : s.trail.drop (s.trail_lim.getD level 0) ⊆ s.trail :=
      List.drop_subset _ _
    have hnd' : ((s.trail.drop (s.trail_lim.getD level 0)).map Lit.v).Nodup := by
      rw [List.map_drop]
      exact (List.drop_sublist _ _).nodup hnd
    have h := weightInv_undoFold (s.trail.drop (s.trail_lim.getD level 0)) s
      (fun l hl => (htc l (hsub hl)).1) (fun l hl => (htc l (hsub hl)).2) hnd' hw
    exact h
  · exact hw

theorem weightInv_cancelAll (s : Solver)
    (hw : weightInv s) (htc : trailConsistent s) (hnd : (s.trail.map Lit.v).Nodup) :
    weightInv (cancelAll s) := by
  exact weightInv_undoFold s.trail s (fun l hl => (htc l hl).1)
    (fun l hl => (htc l hl).2) hnd hw

/-- C1: at every trail push or pop, totalWeight equals the sum of hu_wei[v]
over reifier variables v (index at least nbItems + nbTrans) whose current
assignment is not false: uncheckedEnqueue of a negative reifier literal
subtracts that weight, cancelUntil (and cancelAll) add it back on
un-assignment, so the invariant is preserved by every enqueue and every
backtrack within one guiding path (where hu_wei is fixed). -/
theorem c1_weight_invariant :
    (∀ (s : Solver) (p : Lit) (from? : Option Nat),
        weightInv s → valueLit s p = LBool.lundef → p.v < s.assigns.length →
          weightInv (uncheckedEnqueue p from? s)) ∧
    (∀ (s : Solver) (level : Nat),
        weightInv s → trailConsistent s → (s.trail.map Lit.v).Nodup →
          weightInv (cancelUntil level s)) ∧
    (∀ (s : Solver),
        weightInv s → trailConsistent s → (s.trail.map Lit.v).Nodup →
          weightInv (cancelAll s)) :=
  ⟨weightInv_uncheckedEnqueue, weightInv_cancelUntil, weightInv_cancelAll⟩

/-- A one-reifier-variable state, undefined, with weight 7 counted. -/
def stateA : Solver :=
  { assigns := [LBool.lundef], levels := [0], reasons := [none], seen := [false]
    trail := [], trail_lim := [], qhead := 0, totalWeight := 7, hu_wei := [7]
    nbItems := 0, nbTrans := 0, min_supp := 0, arena := [], clauses := []
    learnts := [], watches := [], items := [], ok := true, diviser_state := 1 }

/-- A one-reifier-variable state where the reifier was set false at level 1. -/
def stateB : Solver :=
  { assigns := [LBool.lfalse], levels := [1], reasons := [none], seen := [false]
    trail := [⟨0, true⟩], trail_lim := [0], qhead := 1, totalWeight := 0
    hu_wei := [5], nbItems := 0, nbTrans := 0, min_supp := 0, arena := []
    clauses := [], learnts := [], watches := [], items := [], ok := true
    diviser_state := 1 }

theorem c1_weight_invariant_witness :
    weightInv (uncheckedEnqueue ⟨0, true⟩ none stateA) ∧
    weightInv (cancelUntil 0 stateB) ∧ weightInv (cancelAll stateB) :=
  ⟨c1_weight_invariant.1 stateA ⟨0, true⟩ none (by decide) (by decide) (by decide),
   c1_weight_invariant.2.1 stateB 0 (by decide) (by decide) (by decide),
   c1_weight_invariant.2.2 stateB (by decide) (by decide) (by decide)⟩

-- ### the conflict branch of Solver::search (Solver.cc:693-708)

/-- The conflict branch of Solver::search: when propagate returns a conflict
(or ok is false), either go to the guiding-path advance section (result flag
true) after setting diviser_state to 0 and clearing the trail, or flip the
most recent decision: backtrack one level and enqueue the negation of the
literal at trail position trail_lim[trail_lim.size()-1].  No call to analyze
appears in Solver::search; no learnt clause is built or attached here. -/
def searchOnConflict (s : Solver) : Solver × Bool :=
  if s.ok = false ∨ decisionLevel s = 0 then
    (cancelAll { s with diviser_state := 0 }, true)
  else
    let q := s.trail.getD (s.trail_lim.getD (s.trail_lim.length - 1) 0) ⟨0, false⟩
    (uncheckedEnqueue (negLit q) none (cancelUntil (decisionLevel s - 1) s), false)

theorem undoFold_watches (ls : List Lit) (s : Solver) :
    (undoFold ls s).clauses = s.clauses ∧ (undoFold ls s).learnts = s.learnts ∧
    (undoFold ls s).arena = s.arena ∧
    (undoFold ls s).diviser_state = s.diviser_state := by
  induction ls with
  | nil => exact ⟨rfl, rfl, rfl, rfl⟩
  | cons l ls ih => rw [undoFold_cons]; simpa [undoOne] using ih

/-- C2: in search, a conflict at decision level greater than 0 causes a
backtrack of exactly one level and the enqueue of the negation of the most
recent decision literal trail[trail_lim[last]]; no learnt clause is produced
or added.  A conflict at decision level 0 instead sets diviser_state to 0,
clears the whole trail and moves to the guiding-path advance section. -/
theorem c2_search_conflict_step (s : Solver)
    (hlim : s.trail_lim.getD (s.trail_lim.length - 1) 0 < s.trail.length) :
    (s.ok = true → 0 < decisionLevel s →
      (searchOnConflict s).2 = false ∧
      decisionLevel (searchOnConflict s).1 = decisionLevel s - 1 ∧
      (searchOnConflict s).1.trail =
        s.trail.take (s.trail_lim.getD (s.trail_lim.length - 1) 0) ++
          [negLit (s.trail.getD (s.trail_lim.getD (s.trail_lim.length - 1) 0) ⟨0, false⟩)] ∧
      (searchOnConflict s).1.learnts = s.learnts ∧
      (searchOnConflict s).1.clauses = s.clauses ∧
      (searchOnConflict s).1.arena = s.arena) ∧
    (decisionLevel s = 0 →
      (searchOnConflict s).2 = true ∧
      (searchOnConflict s).1.diviser_state = 0 ∧
      (searchOnConflict s).1.trail = [] ∧
      (searchOnConflict s).1.qhead = 0 ∧
      (searchOnConflict s).1.learnts = s.learnts ∧
      (searchOnConflict s).1.clauses = s.clauses) := by
  constructor
  · intro hok hdl
    have hcond : ¬(s.ok = false ∨ decisionLevel s = 0) := by
      rintro (h | h)
      · rw [hok] at h; exact Bool.noConfusion h
      · omega
    unfold searchOnConflict
    rw [if_neg hcond]
    have hlv : decisionLevel s - 1 < decisionLevel s := by omega
    unfold cancelUntil
    rw [if_pos hlv]
    have hlim2 : decisionLevel s - 1 = s.trail_lim.length - 1 := rfl
    refine ⟨rfl, ?_, ?_, ?_, ?_, ?_⟩
    · show (s.trail_lim.take (decisionLevel s - 1)).length = decisionLevel s - 1
      rw [List.length_take]
      unfold decisionLevel
      omega
    · simp [uncheckedEnqueue, hlim2]
    · exact (undoFold_watches _ _).2.1
    · exact (undoFold_watches _ _).1
    · exact (undoFold_watches _ _).2.2.1
  · intro hdl
    have hcond : s.ok = false ∨ decisionLevel s = 0 := Or.inr hdl
    unfold searchOnConflict
    rw [if_pos hcond]
    refine ⟨rfl, ?_, rfl, rfl, ?_, ?_⟩
    · exact (undoFold_watches _ _).2.2.2
    · exact (undoFold_watches _ _).2.1
    · exact (undoFold_watches _ _).1

/-- A state at decision level 1 whose only decision is the positive literal
of variable 0. -/
def stateC : Solver :=
  { assigns := [LBool.ltrue, LBool.lundef], levels := [1, 0], reasons := [none, none]
    seen := [false, false], trail := [⟨0, false⟩], trail_lim := [0], qhead := 1
    totalWeight := 0, hu_wei := [0, 0], nbItems := 2, nbTrans := 0, min_supp := 0
    arena := [], clauses := [], learnts := [], watches := [], items := []
    ok := true, diviser_state := 1 }

theorem c2_search_conflict_step_witness :
    (searchOnConflict stateC).2 = false ∧
    decisionLevel (searchOnConflict stateC).1 = 0 ∧
    (searchOnConflict stateC).1.trail = [⟨0, true⟩] :=
  ⟨((c2_search_conflict_step stateC (by decide)).1 rfl (by decide)).1,
   ((c2_search_conflict_step stateC (by decide)).1 rfl (by decide)).2.1,
   ((c2_search_conflict_step stateC (by decide)).1 rfl (by decide)).2.2.1⟩

-- ### Solver::propagate (Solver.cc:486-553)

/-- The empty stored clause, used as out-of-range default. -/
def emptyClause : Clause := ⟨[], false⟩

/-- Default literal for out-of-range reads. -/
def dLit : Lit := ⟨0, false⟩

/-- Literals of the clause at a reference. -/
def clauseLits (s : Solver) (cr : Nat) : List Lit := (s.arena.getD cr emptyClause).lits

/-- Write back the (possibly reordered) literal list of a clause. -/
def setClauseLits (s : Solver) (cr : Nat) (c : List Lit) : Solver :=
  { s with arena := s.arena.set cr ⟨c, (s.arena.getD cr emptyClause).mark⟩ }

/-- The watcher list of a literal. -/
def getWatch (s : Solver) (p : Lit) : List Watcher := s.watches.getD (litIndex p) []

/-- Replace the watcher list of a literal. -/
def setWatch (s : Solver) (p : Lit) (l : List Watcher) : Solver :=
  { s with watches := s.watches.set (litIndex p) l }

/-- Append a watcher to the list of a literal. -/
def pushWatch (s : Solver) (p : Lit) (w : Watcher) : Solver :=
  setWatch s p (getWatch s p ++ [w])

/-- Make sure the false literal is data[1] (Solver.cc:509-510): if c[0] is the
false literal, swap c[0] and c[1]. -/
def arrangeClause (c : List Lit) (false_lit : Lit) : List Lit :=
  if c.getD 0 dLit = false_lit then (c.set 0 (c.getD 1 dLit)).set 1 false_lit else c

/-- Look for a new watch (Solver.cc:521-522): the first index k at least 2
whose literal is not false. -/
def findWatch (s : Solver) (c : List Lit) : Option Nat :=
  match (c.drop 2).findIdx? (fun l => decide (valueLit s l ≠ LBool.lfalse)) with
  | some i => some (i + 2)
  | none => none

/-- The inner watcher loop of Solver::propagate for one dequeued literal p
(Solver.cc:498-546).  Processes the pending watchers, accumulating the kept
region (the j pointer); moved watchers are pushed to the other watch list; in
the unit case, a conflict (weight deficit, or false first literal) sets qhead
to the trail end and copies the remaining watchers back unchanged, otherwise
the first literal is enqueued with the clause as reason. -/
def propWatchers (p : Lit) : Solver → List Watcher → List Watcher →
    Solver × List Watcher × Option Nat
  | s, [], kept => (s, kept, none)
  | s, w :: rest, kept =>
    if valueLit s w.blocker = LBool.ltrue then
      propWatchers p s rest (kept ++ [w])
    else
      let cr := w.cref
      let false_lit := negLit p
      let c := arrangeClause (clauseLits s cr) false_lit
      let s1 := setClauseLits s cr c
      let first := c.getD 0 dLit
      let wNew : Watcher := ⟨cr, first⟩
      if first ≠ w.blocker then
        propWatchers p s1 rest (kept ++ [wNew])
      else
        match findWatch s1 c with
        | some k =>
          let c2 := (c.set 1 (c.getD k dLit)).set k false_lit
          let s2 := pushWatch (setClauseLits s1 cr c2) (negLit (c2.getD 1 dLit)) wNew
          propWatchers p s2 rest kept
        | none =>
          if s1.totalWeight < s1.min_supp then
            ({ s1 with qhead := s1.trail.length }, kept ++ [wNew] ++ rest, some cr)
          else if valueLit s1 first = LBool.lfalse then
            ({ s1 with qhead := s1.trail.length }, kept ++ [wNew] ++ rest, some cr)
          else
            propWatchers p (uncheckedEnqueue first (some cr) s1) rest (kept ++ [wNew])

/-- One iteration of the outer propagation loop: dequeue p = trail[qhead++],
run the watcher loop on watches[p], and store the surviving watchers back. -/
def propagateStep (s : Solver) : Solver × Option Nat :=
  let p := s.trail.getD s.qhead dLit
  let r := propWatchers p { s with qhead := s.qhead + 1 } (getWatch s p) []
  (setWatch r.1 p r.2.1, r.2.2)

/-- watches.cleanAll() at the start of propagate: drop watchers of removed
(marked) clauses from the watch lists. -/
def cleanAll (s : Solver) : Solver :=
  { s with watches := s.watches.map (fun l => l.filter (fun w => !(s.arena.getD w.cref emptyClause).mark)) }

/-- The outer while loop of Solver::propagate, with explicit fuel (the C loop
terminates because each iteration advances qhead and every enqueue assigns an
undefined variable).  A conflict sets qhead to the trail end, so the loop
exits right after it. -/
def propagateLoop : Nat → Solver → Solver × Option Nat
  | 0, s => (s, none)
  | Nat.succ fuel, s =>
    if s.qhead < s.trail.length then
      match propagateStep s with
      | (s1, some cr) => (s1, some cr)
      | (s1, none) => propagateLoop fuel s1
    else (s, none)

/-- Fuel sufficient for the reachable states: the queue length plus one slot
per variable that could still be enqueued. -/
def propagateFuel (s : Solver) : Nat := s.assigns.length + s.trail.length + 1

/-- Solver::propagate (Solver.cc:486): clean the watch lists, then run the
propagation loop; returns the updated state and the conflict, if any. -/
def propagate (s : Solver) : Solver × Option Nat :=
  propagateLoop (propagateFuel s) (cleanAll s)

/-- The item-pruning loop of encodeGuidingPath (Solver.cc:992-997): every
item still undefined whose tallied occurrence weight is below the minimum
support has its negation enqueued and propagated. -/
def pruneLowSupport (coopMin : Int) (occ : List Int) (itemsL : List Lit)
    (s : Solver) : Solver :=
  itemsL.foldl (fun acc it =>
    if valueLit acc it = LBool.lundef ∧ occ.getD it.v 0 < coopMin then
      (propagate (uncheckedEnqueue (negLit it) none acc)).1
    else acc) s

-- ### unfolding lemmas for the watcher loop

theorem propWatchers_nil (p : Lit) (s : Solver) (kept : List Watcher) :
    propWatchers p s [] kept = (s, kept, none) := rfl

theorem propWatchers_cons_skip {s : Solver} {w : Watcher} (p : Lit)
    (rest kept : List Watcher) (h : valueLit s w.blocker = LBool.ltrue) :
    propWatchers p s (w :: rest) kept = propWatchers p s rest (kept ++ [w]) := by
  rw [propWatchers, if_pos h]

theorem propWatchers_cons_keep {s : Solver} {w : Watcher} (p : Lit)
    (rest kept : List Watcher) (hb : ¬ valueLit s w.blocker = LBool.ltrue)
    (hf : (arrangeClause (clauseLits s w.cref) (negLit p)).getD 0 dLit ≠ w.blocker) :
    propWatchers p s (w :: rest) kept =
      propWatchers p (setClauseLits s w.cref (arrangeClause (clauseLits s w.cref) (negLit p)))
        rest (kept ++ [⟨w.cref, (arrangeClause (clauseLits s w.cref) (negLit p)).getD 0 dLit⟩]) := by
  rw [propWatchers, if_neg hb]
  dsimp only
  rw [if_pos hf]

theorem propWatchers_cons_move {s : Solver} {w : Watcher} {k : Nat} (p : Lit)
    (rest kept : List Watcher) (hb : ¬ valueLit s w.blocker = LBool.ltrue)
    (hf : (arrangeClause (clauseLits s w.cref) (negLit p)).getD 0 dLit = w.blocker)
    (hw : findWatch (setClauseLits s w.cref (arrangeClause (clauseLits s w.cref) (negLit p)))
            (arrangeClause (clauseLits s w.cref) (negLit p)) = some k) :
    propWatchers p s (w :: rest) kept =
      propWatchers p
        (pushWatch
          (setClauseLits
            (setClauseLits s w.cref (arrangeClause (clauseLits s w.cref) (negLit p)))
            w.cref
            (((arrangeClause (clauseLits s w.cref) (negLit p)).set 1
                ((arrangeClause (clauseLits s w.cref) (negLit p)).getD k dLit)).set k (negLit p)))
          (negLit ((((arrangeClause (clauseLits s w.cref) (negLit p)).set 1
                ((arrangeClause (clauseLits s w.cref) (negLit p)).getD k dLit)).set k
                  (negLit p)).getD 1 dLit))
          ⟨w.cref, (arrangeClause (clauseLits s w.cref) (negLit p)).getD 0 dLit⟩)
        rest kept := by
  rw [propWatchers, if_neg hb]
  dsimp only
  rw [if_neg (not_not_intro hf), hw]

theorem propWatchers_cons_unit {s : Solver} {w : Watcher} (p : Lit)
    (rest kept : List Watcher) (hb : ¬ valueLit s w.blocker = LBool.ltrue)
    (hf : (arrangeClause (clauseLits s w.cref) (negLit p)).getD 0 dLit = w.blocker)
    (hw : findWatch (setClauseLits s w.cref (arrangeClause (clauseLits s w.cref) (negLit p)))
            (arrangeClause (clauseLits s w.cref) (negLit p)) = none) :
    propWatchers p s (w :: rest) kept =
      (let s1 := setClauseLits s w.cref (arrangeClause (clauseLits s w.cref) (negLit p))
       let first := (arrangeClause (clauseLits s w.cref) (negLit p)).getD 0 dLit
       if s1.totalWeight < s1.min_supp then
         ({ s1 with qhead := s1.trail.length }, kept ++ [⟨w.cref, first⟩] ++ rest, some w.cref)
       else if valueLit s1 first = LBool.lfalse then
         ({ s1 with qhead := s1.trail.length }, kept ++ [⟨w.cref, first⟩] ++ rest, some w.cref)
       else
         propWatchers p (uncheckedEnqueue first (some w.cref) s1) rest
           (kept ++ [⟨w.cref, first⟩])) := by
  rw [propWatchers, if_neg hb]
  dsimp only
  rw [if_neg (not_not_intro hf), hw]

theorem lbool_undef_of_ne {b : LBool} (h1 : b ≠ LBool.ltrue) (h2 : b ≠ LBool.lfalse) :
    b = LBool.lundef := by
  cases b
  · exact absurd rfl h1
  · exact absurd rfl h2
  · rfl

theorem valueLit_undef_iff (s : Solver) (p : Lit) :
    valueLit s p = LBool.lundef ↔ valueVar s p.v = LBool.lundef := by
  unfold valueLit
  cases p.sign <;> simp [negLB_eq_undef]

/-- In the unit case, the enqueued first literal is undefined: its value is
not true (it equals the blocker, whose value is not true) and not false (the
conflict branch was not taken). -/
theorem unit_first_undef {s : Solver} {w : Watcher} (p : Lit)
    (hb : ¬ valueLit s w.blocker = LBool.ltrue)
    (hf : (arrangeClause (clauseLits s w.cref) (negLit p)).getD 0 dLit = w.blocker)
    (hnf : ¬ valueLit (setClauseLits s w.cref (arrangeClause (clauseLits s w.cref) (negLit p)))
            ((arrangeClause (clauseLits s w.cref) (negLit p)).getD 0 dLit) = LBool.lfalse) :
    valueVar s ((arrangeClause (clauseLits s w.cref) (negLit p)).getD 0 dLit).v
      = LBool.lundef := by
  have h1 : valueLit s ((arrangeClause (clauseLits s w.cref) (negLit p)).getD 0 dLit)
      ≠ LBool.ltrue := by rw [hf]; exact hb
  have h2 : valueLit s ((arrangeClause (clauseLits s w.cref) (negLit p)).getD 0 dLit)
      ≠ LBool.lfalse := hnf
  exact (valueLit_undef_iff s _).mp (lbool_undef_of_ne h1 h2)

-- ### value stability: no modelled operation un-assigns a variable

theorem valueVar_uncheckedEnqueue_ne (s : Solver) (q : Lit) (from? : Option Nat)
    {v : Nat} (h : q.v ≠ v) :
    valueVar (uncheckedEnqueue q from? s) v = valueVar s v := by
  unfold valueVar uncheckedEnqueue
  exact getD_set_ne _ _ _ h

theorem propWatchers_valueVar (p : Lit) (pending : List Watcher) :
    ∀ (s : Solver) (kept : List Watcher) (v : Nat),
      valueVar s v ≠ LBool.lundef →
      valueVar (propWatchers p s pending kept).1 v = valueVar s v := by
  induction pending with
  | nil => intro s kept v _; rfl
  | cons w rest ih =>
    intro s kept v h
    by_cases hb : valueLit s w.blocker = LBool.ltrue
    · rw [propWatchers_cons_skip p rest kept hb]; exact ih s _ v h
    · by_cases hf : (arrangeClause (clauseLits s w.cref) (negLit p)).getD 0 dLit = w.blocker
      · cases hw : findWatch (setClauseLits s w.cref (arrangeClause (clauseLits s w.cref)
            (negLit p))) (arrangeClause (clauseLits s w.cref) (negLit p)) with
        | none =>
          rw [propWatchers_cons_unit p rest kept hb hf hw]
          dsimp only
          split_ifs with h1 h2
          · rfl
          · rfl
          · have hu : valueVar s ((arrangeClause (clauseLits s w.cref) (negLit p)).getD 0 dLit).v
                = LBool.lundef := unit_first_undef p hb hf h2
            have hne : ((arrangeClause (clauseLits s w.cref) (negLit p)).getD 0 dLit).v ≠ v := by
              intro hc; rw [hc] at hu; exact h hu
            have hpres : valueVar (uncheckedEnqueue
                ((arrangeClause (clauseLits s w.cref) (negLit p)).getD 0 dLit) (some w.cref)
                (setClauseLits s w.cref (arrangeClause (clauseLits s w.cref) (negLit p)))) v
                = valueVar s v := valueVar_uncheckedEnqueue_ne _ _ _ hne
            rw [ih _ _ v (by rw [hpres]; exact h), hpres]
        | some k =>
          rw [propWatchers_cons_move p rest kept hb hf hw]
          exact ih _ _ v h
      · rw [propWatchers_cons_keep p rest kept hb hf]
        exact ih _ _ v h

theorem propWatchers_assigns_length (p : Lit) (pending : List Watcher) :
    ∀ (s : Solver) (kept : List Watcher),
      (propWatchers p s pending kept).1.assigns.length = s.assigns.length := by
  induction pending with
  | nil => intro s kept; rfl
  | cons w rest ih =>
    intro s kept
    by_cases hb : valueLit s w.blocker = LBool.ltrue
    · rw [propWatchers_cons_skip p rest kept hb]; exact ih s _
    · by_cases hf : (arrangeClause (clauseLits s w.cref) (negLit p)).getD 0 dLit = w.blocker
      · cases hw : findWatch (setClauseLits s w.cref (arrangeClause (clauseLits s w.cref)
            (negLit p))) (arrangeClause (clauseLits s w.cref) (negLit p)) with
        | none =>
          rw [propWatchers_cons_unit p rest kept hb hf hw]
          dsimp only
          split_ifs with h1 h2
          · rfl
          · rfl
          · rw [ih _ _]
            simp [uncheckedEnqueue, setClauseLits]
        | some k =>
          rw [propWatchers_cons_move p rest kept hb hf hw]
          exact ih _ _
      · rw [propWatchers_cons_keep p rest kept hb hf]
        exact ih _ _

theorem propagateStep_valueVar (s : Solver) (v : Nat) (h : valueVar s v ≠ LBool.lundef) :
    valueVar (propagateStep s).1 v = valueVar s v :=
  propWatchers_valueVar _ _ _ _ v h

theorem propagateStep_assigns_length (s : Solver) :
    (propagateStep s).1.assigns.length = s.assigns.length :=
  propWatchers_assigns_length _ _ _ _

theorem propagateLoop_valueVar (fuel : Nat) :
    ∀ (s : Solver) (v : Nat), valueVar s v ≠ LBool.lundef →
      valueVar (propagateLoop fuel s).1 v = valueVar s v := by
  induction fuel with
  | zero => intro s v _; rfl
  | succ fuel ih =>
    intro s v h
    rw [propagateLoop]
    split
    · cases hm : propagateStep s with
      | mk s1 confl =>
        cases confl with
        | some cr =>
          have := propagateStep_valueVar s v h
          rw [hm] at this
          simpa using this
        | none =>
          have h1 := propagateStep_valueVar s v h
          rw [hm] at h1
          simp only []
          rw [ih s1 v (by rw [h1]; exact h)]
          exact h1
    · rfl

theorem propagateLoop_assigns_length (fuel : Nat) :
    ∀ (s : Solver), (propagateLoop fuel s).1.assigns.length = s.assigns.length := by
  induction fuel with
  | zero => intro s; rfl
  | succ fuel ih =>
    intro s
    rw [propagateLoop]
    split
    · cases hm : propagateStep s with
      | mk s1 confl =>
        cases confl with
        | some cr =>
          have := propagateStep_assigns_length s
          rw [hm] at this
          simpa using this
        | none =>
          have h1 := propagateStep_assigns_length s
          rw [hm] at h1
          simp only []
          rw [ih s1]
          exact h1
    · rfl

theorem propagate_valueVar (s : Solver) (v : Nat) (h : valueVar s v ≠ LBool.lundef) :
    valueVar (propagate s).1 v = valueVar s v :=
  propagateLoop_valueVar _ _ v h

theorem propagate_assigns_length (s : Solver) :
    (propagate s).1.assigns.length = s.assigns.length :=
  propagateLoop_assigns_length _ _

-- ### a conflict flushes the propagation queue

theorem propWatchers_conflict (p : Lit) (pending : List Watcher) :
    ∀ (s : Solver) (kept : List Watcher) (cr : Nat),
      (propWatchers p s pending kept).2.2 = some cr →
      (propWatchers p s pending kept).1.qhead = (propWatchers p s pending kept).1.trail.length := by
  induction pending with
  | nil => intro s kept cr h; exact absurd h (by simp [propWatchers_nil])
  | cons w rest ih =>
    intro s kept cr h
    by_cases hb : valueLit s w.blocker = LBool.ltrue
    · rw [propWatchers_cons_skip p rest kept hb] at h ⊢; exact ih s _ cr h
    · by_cases hf : (arrangeClause (clauseLits s w.cref) (negLit p)).getD 0 dLit = w.blocker
      · cases hw : findWatch (setClauseLits s w.cref (arrangeClause (clauseLits s w.cref)
            (negLit p))) (arrangeClause (clauseLits s w.cref) (negLit p)) with
        | none =>
          rw [propWatchers_cons_unit p rest kept hb hf hw] at h ⊢
          dsimp only at h ⊢
          split_ifs with h1 h2
          · rfl
          · rfl
          · rw [if_neg h1, if_neg h2] at h
            exact ih _ _ cr h
        | some k =>
          rw [propWatchers_cons_move p rest kept hb hf hw] at h ⊢
          exact ih _ _ cr h
      · rw [propWatchers_cons_keep p rest kept hb hf] at h ⊢
        exact ih _ _ cr h

theorem propagateStep_conflict (s : Solver) (cr : Nat)
    (h : (propagateStep s).2 = some cr) :
    (propagateStep s).1.qhead = (propagateStep s).1.trail.length :=
  propWatchers_conflict _ _ _ _ cr h

theorem propagateLoop_conflict (fuel : Nat) :
    ∀ (s : Solver) (cr : Nat), (propagateLoop fuel s).2 = some cr →
      (propagateLoop fuel s).1.qhead = (propagateLoop fuel s).1.trail.length := by
  induction fuel with
  | zero => intro s cr h; exact absurd h (by simp [propagateLoop])
  | succ fuel ih =>
    intro s cr h
    rw [propagateLoop] at h ⊢
    by_cases hq : s.qhead < s.trail.length
    · rw [if_pos hq] at h ⊢
      cases hm : propagateStep s with
      | mk s1 confl =>
        cases confl with
        | some c =>
          dsimp only at h ⊢
          have h2 := propagateStep_conflict s c (by rw [hm])
          rw [hm] at h2
          simpa using h2
        | none =>
          rw [hm] at h
          dsimp only at h ⊢
          exact ih s1 cr h
    · rw [if_neg hq] at h
      exact absurd h (by simp)

/-- C3: in propagate, when a watched clause has no replacement watch: if
totalWeight < min_supp the clause is returned as the conflict (no hypothesis
on the value of c[0], so in particular also when c[0] is unassigned);
otherwise, if c[0] is false it is the conflict; otherwise c[0] is enqueued
with the clause as reason.  In both conflict cases qhead is set to the trail
end and the remaining watchers are copied back unchanged, and the loop then
returns with the propagation queue empty. -/
theorem c3_unit_case :
    (∀ (s : Solver) (p : Lit) (w : Watcher) (rest kept : List Watcher)
        (s1 : Solver) (first : Lit),
      s1 = setClauseLits s w.cref (arrangeClause (clauseLits s w.cref) (negLit p)) →
      first = (arrangeClause (clauseLits s w.cref) (negLit p)).getD 0 dLit →
      ¬ valueLit s w.blocker = LBool.ltrue →
      first = w.blocker →
      findWatch s1 (arrangeClause (clauseLits s w.cref) (negLit p)) = none →
      ((s1.totalWeight < s1.min_supp →
          propWatchers p s (w :: rest) kept =
            ({ s1 with qhead := s1.trail.length },
              kept ++ [⟨w.cref, first⟩] ++ rest, some w.cref)) ∧
       (¬ s1.totalWeight < s1.min_supp → valueLit s1 first = LBool.lfalse →
          propWatchers p s (w :: rest) kept =
            ({ s1 with qhead := s1.trail.length },
              kept ++ [⟨w.cref, first⟩] ++ rest, some w.cref)) ∧
       (¬ s1.totalWeight < s1.min_supp → ¬ valueLit s1 first = LBool.lfalse →
          propWatchers p s (w :: rest) kept =
            propWatchers p (uncheckedEnqueue first (some w.cref) s1) rest
              (kept ++ [⟨w.cref, first⟩])))) ∧
    (∀ (fuel : Nat) (t : Solver) (cr : Nat),
      (propagateLoop fuel t).2 = some cr →
      (propagateLoop fuel t).1.qhead = (propagateLoop fuel t).1.trail.length) := by
  constructor
  · intro s p w rest kept s1 first hs1 hfirst hb hf hw
    subst hs1; subst hfirst
    refine ⟨?_, ?_, ?_⟩
    · intro h1
      rw [propWatchers_cons_unit p rest kept hb hf hw]
      dsimp only
      rw [if_pos h1]
    · intro h1 h2
      rw [propWatchers_cons_unit p rest kept hb hf hw]
      dsimp only
      rw [if_neg h1, if_pos h2]
    · intro h1 h2
      rw [propWatchers_cons_unit p rest kept hb hf hw]
      dsimp only
      rw [if_neg h1, if_neg h2]
  · exact propagateLoop_conflict

/-- A state with one binary clause (x0 or not x2 arranged as x0, not x1),
x0 unassigned, x1 true on the trail, totalWeight below min_supp. -/
def stateD : Solver :=
  { assigns := [LBool.lundef, LBool.ltrue], levels := [0, 0], reasons := [none, none]
    seen := [false, false], trail := [⟨1, false⟩], trail_lim := [], qhead := 1
    totalWeight := -1, hu_wei := [0, 0], nbItems := 2, nbTrans := 0, min_supp := 0
    arena := [⟨[⟨0, false⟩, ⟨1, true⟩], false⟩], clauses := [0], learnts := []
    watches := [], items := [], ok := true, diviser_state := 1 }

/-- Like stateD but with x0 false and no weight deficit: the classic
falsified-clause conflict. -/
def stateD2 : Solver :=
  { assigns := [LBool.lfalse, LBool.ltrue], levels := [0, 0], reasons := [none, none]
    seen := [false, false], trail := [⟨1, false⟩], trail_lim := [], qhead := 1
    totalWeight := 0, hu_wei := [0, 0], nbItems := 2, nbTrans := 0, min_supp := 0
    arena := [⟨[⟨0, false⟩, ⟨1, true⟩], false⟩], clauses := [0], learnts := []
    watches := [], items := [], ok := true, diviser_state := 1 }

theorem c3_unit_case_witness :
    ((propWatchers ⟨1, false⟩ stateD [⟨0, ⟨0, false⟩⟩] []).2.2 = some 0 ∧
     (propWatchers ⟨1, false⟩ stateD [⟨0, ⟨0, false⟩⟩] []).1.qhead =
       (propWatchers ⟨1, false⟩ stateD [⟨0, ⟨0, false⟩⟩] []).1.trail.length ∧
     valueLit stateD ⟨0, false⟩ = LBool.lundef) ∧
    (propWatchers ⟨1, false⟩ stateD2 [⟨0, ⟨0, false⟩⟩] []).2.2 = some 0 := by
  constructor
  · have h := ((c3_unit_case.1 stateD ⟨1, false⟩ ⟨0, ⟨0, false⟩⟩ [] [] _ _ rfl rfl
      (by decide) (by decide) (by decide)).1 (by decide))
    rw [h]
    exact ⟨rfl, rfl, by decide⟩
  · have h := ((c3_unit_case.1 stateD2 ⟨1, false⟩ ⟨0, ⟨0, false⟩⟩ [] [] _ _ rfl rfl
      (by decide) (by decide) (by decide)).2.1 (by decide) (by decide))
    rw [h]

/-- A state propagating x2 through the clause (x0 or not x2 or x1) watched
with blocker x1; both x0 and x1 are unassigned. -/
def stateE : Solver :=
  { assigns := [LBool.lundef, LBool.lundef, LBool.ltrue], levels := [0, 0, 0]
    reasons := [none, none, none], seen := [false, false, false]
    trail := [⟨2, false⟩], trail_lim := [], qhead := 1, totalWeight := 0
    hu_wei := [0, 0, 0], nbItems := 3, nbTrans := 0, min_supp := 0
    arena := [⟨[⟨0, false⟩, ⟨2, true⟩, ⟨1, false⟩], false⟩], clauses := [0]
    learnts := [], watches := [], items := [], ok := true, diviser_state := 1 }

/-- C4 counter-evidence: with blocker x1 not true and first literal c[0] = x0
unassigned (hence not true), the watcher loop retains the watcher with c[0]
as its new blocker and treats the clause as satisfied: nothing is enqueued
and the watcher is not moved, although a replacement watch exists at index 2.
The code keeps the watcher whenever c[0] differs from the blocker, with no
check that c[0] is true, contradicting the claim (and the comment above
Solver.cc:514 and the two-watched contract). -/
theorem c4_retained_without_true_first :
    (propWatchers ⟨2, false⟩ stateE [⟨0, ⟨1, false⟩⟩] []).2.1 = [⟨0, ⟨0, false⟩⟩] ∧
    (propWatchers ⟨2, false⟩ stateE [⟨0, ⟨1, false⟩⟩] []).2.2 = none ∧
    (propWatchers ⟨2, false⟩ stateE [⟨0, ⟨1, false⟩⟩] []).1.trail = stateE.trail ∧
    (propWatchers ⟨2, false⟩ stateE [⟨0, ⟨1, false⟩⟩] []).1.assigns = stateE.assigns ∧
    valueLit stateE ⟨0, false⟩ = LBool.lundef ∧
    findWatch stateE (clauseLits stateE 0) = some 2 := by decide

-- ### C7: value stability through the pruning loop

theorem valueVar_uncheckedEnqueue_self (s : Solver) (q : Lit) (from? : Option Nat)
    (h : q.v < s.assigns.length) :
    valueVar (uncheckedEnqueue q from? s) q.v =
      (if q.sign then LBool.lfalse else LBool.ltrue) := by
  unfold valueVar uncheckedEnqueue
  exact getD_set_eq _ _ _ _ h

theorem valueLit_after_neg_enqueue (s : Solver) (r : Lit) (from? : Option Nat)
    (h : r.v < s.assigns.length) :
    valueLit (uncheckedEnqueue (negLit r) from? s) r = LBool.lfalse := by
  have hv := valueVar_uncheckedEnqueue_self s (negLit r) from? (by simpa [negLit] using h)
  unfold valueLit
  have hvv : (negLit r).v = r.v := rfl
  rw [hvv] at hv
  cases hr : r.sign <;> simp [hr, negLit] at hv ⊢ <;> rw [hv] <;> rfl

theorem pruneLowSupport_cons (coopMin : Int) (occ : List Int) (it : Lit)
    (rest : List Lit) (s : Solver) :
    pruneLowSupport coopMin occ (it :: rest) s =
      pruneLowSupport coopMin occ rest
        (if valueLit s it = LBool.lundef ∧ occ.getD it.v 0 < coopMin then
          (propagate (uncheckedEnqueue (negLit it) none s)).1
         else s) := rfl

theorem pruneLowSupport_valueVar (coopMin : Int) (occ : List Int) (itemsL : List Lit) :
    ∀ (s : Solver) (v : Nat), valueVar s v ≠ LBool.lundef →
      valueVar (pruneLowSupport coopMin occ itemsL s) v = valueVar s v := by
  induction itemsL with
  | nil => intro s v _; rfl
  | cons it rest ih =>
    intro s v h
    rw [pruneLowSupport_cons]
    by_cases hg : valueLit s it = LBool.lundef ∧ occ.getD it.v 0 < coopMin
    · rw [if_pos hg]
      have hne : (negLit it).v ≠ v := by
        intro hc
        have : valueVar s it.v = LBool.lundef := (valueLit_undef_iff s it).mp hg.1
        rw [show (negLit it).v = it.v from rfl] at hc
        rw [hc] at this
        exact h this
      have h1 : valueVar (uncheckedEnqueue (negLit it) none s) v = valueVar s v :=
        valueVar_uncheckedEnqueue_ne s (negLit it) none hne
      have h2 : valueVar (propagate (uncheckedEnqueue (negLit it) none s)).1 v
          = valueVar s v := by
        rw [propagate_valueVar _ v (by rw [h1]; exact h)]
        exact h1
      rw [ih _ v (by rw [h2]; exact h)]
      exact h2
    · rw [if_neg hg]
      exact ih s v h

theorem pruneLowSupport_assigns_length (coopMin : Int) (occ : List Int)
    (itemsL : List Lit) :
    ∀ (s : Solver),
      (pruneLowSupport coopMin occ itemsL s).assigns.length = s.assigns.length := by
  induction itemsL with
  | nil => intro s; rfl
  | cons it rest ih =>
    intro s
    rw [pruneLowSupport_cons]
    by_cases hg : valueLit s it = LBool.lundef ∧ occ.getD it.v 0 < coopMin
    · rw [if_pos hg, ih, propagate_assigns_length]
      simp [uncheckedEnqueue]
    · rw [if_neg hg, ih]

/-- C7: after an item pruning pass, every item with occurrence weight below
the minimum support is no longer undefined; an item that was still undefined
when its turn came is forced false (its negation enqueued at the current
decision level, which is 0 at the call site) and propagated, and it stays
false through the rest of the pass. -/
theorem c7_item_pruning :
    (∀ (coopMin : Int) (occ : List Int) (itemsL : List Lit) (s : Solver) (r : Lit),
        r ∈ itemsL → r.v < s.assigns.length → occ.getD r.v 0 < coopMin →
        valueLit (pruneLowSupport coopMin occ itemsL s) r ≠ LBool.lundef) ∧
    (∀ (coopMin : Int) (occ : List Int) (r : Lit) (rest : List Lit) (s : Solver),
        r.v < s.assigns.length → valueLit s r = LBool.lundef → occ.getD r.v 0 < coopMin →
        valueLit (pruneLowSupport coopMin occ (r :: rest) s) r = LBool.lfalse ∧
        pruneLowSupport coopMin occ (r :: rest) s =
          pruneLowSupport coopMin occ rest (propagate (uncheckedEnqueue (negLit r) none s)).1 ∧
        (uncheckedEnqueue (negLit r) none s).trail = s.trail ++ [negLit r] ∧
        (uncheckedEnqueue (negLit r) none s).levels =
          s.levels.set r.v (decisionLevel s)) := by
  have key : ∀ (coopMin : Int) (occ : List Int) (r : Lit) (rest : List Lit) (s : Solver),
      r.v < s.assigns.length → valueLit s r = LBool.lundef → occ.getD r.v 0 < coopMin →
      valueLit (pruneLowSupport coopMin occ (r :: rest) s) r = LBool.lfalse := by
    intro coopMin occ r rest s hlen hundef hocc
    rw [pruneLowSupport_cons, if_pos ⟨hundef, hocc⟩]
    have h1 : valueLit (uncheckedEnqueue (negLit r) none s) r = LBool.lfalse :=
      valueLit_after_neg_enqueue s r none hlen
    have h1v : valueVar (uncheckedEnqueue (negLit r) none s) r.v ≠ LBool.lundef := by
      intro hc
      rw [(valueLit_undef_iff _ r).mpr hc] at h1
      exact LBool.noConfusion h1
    have h2 : valueVar (propagate (uncheckedEnqueue (negLit r) none s)).1 r.v
        = valueVar (uncheckedEnqueue (negLit r) none s) r.v :=
      propagate_valueVar _ r.v h1v
    have h3 : valueVar (pruneLowSupport coopMin occ rest
        (propagate (uncheckedEnqueue (negLit r) none s)).1) r.v
        = valueVar (uncheckedEnqueue (negLit r) none s) r.v := by
      rw [pruneLowSupport_valueVar _ _ _ _ r.v (by rw [h2]; exact h1v)]
      exact h2
    show valueLit _ r = LBool.lfalse
    unfold valueLit at h1 ⊢
    rw [h3]
    exact h1
  constructor
  · intro coopMin occ itemsL
    induction itemsL with
    | nil => intro s r hr; exact absurd hr (List.not_mem_nil r)
    | cons it rest ih =>
      intro s r hr hlen hocc
      rcases List.mem_cons.mp hr with heq | hmem
      · subst heq
        by_cases hu : valueLit s r = LBool.lundef
        · rw [key coopMin occ r rest s hlen hu hocc]
          exact LBool.noConfusion
        · rw [pruneLowSupport_cons]
          have hg : ¬ (valueLit s r = LBool.lundef ∧ occ.getD r.v 0 < coopMin) :=
            fun hc => hu hc.1
          rw [if_neg hg]
          have hvv : valueVar s r.v ≠ LBool.lundef :=
            fun hc => hu ((valueLit_undef_iff s r).mpr hc)
          intro hc
          apply hu
          have := pruneLowSupport_valueVar coopMin occ rest s r.v hvv
          rw [(valueLit_undef_iff _ r).mp hc] at this
          exact (valueLit_undef_iff s r).mpr this.symm
      · rw [pruneLowSupport_cons]
        by_cases hg : valueLit s it = LBool.lundef ∧ occ.getD it.v 0 < coopMin
        · rw [if_pos hg]
          apply ih _ r hmem _ hocc
          rw [propagate_assigns_length]
          simpa [uncheckedEnqueue] using hlen
        · rw [if_neg hg]
          exact ih s r hmem hlen hocc
  · intro coopMin occ r rest s hlen hundef hocc
    refine ⟨key coopMin occ r rest s hlen hundef hocc, ?_, rfl, rfl⟩
    rw [pruneLowSupport_cons, if_pos ⟨hundef, hocc⟩]

/-- A one-variable state with no clauses, for exercising the pruning loop. -/
def stateF : Solver :=
  { assigns := [LBool.lundef], levels := [0], reasons := [none], seen := [false]
    trail := [], trail_lim := [], qhead := 0, totalWeight := 0, hu_wei := [0]
    nbItems := 1, nbTrans := 0, min_supp := 1, arena := [], clauses := []
    learnts := [], watches := [[], []], items := [], ok := true, diviser_state := 1 }

theorem c7_item_pruning_witness :
    valueLit (pruneLowSupport 1 [0] [⟨0, false⟩] stateF) ⟨0, false⟩ ≠ LBool.lundef ∧
    valueLit (pruneLowSupport 1 [0] [⟨0, false⟩] stateF) ⟨0, false⟩ = LBool.lfalse :=
  ⟨c7_item_pruning.1 1 [0] [⟨0, false⟩] stateF ⟨0, false⟩ (by decide) (by decide) (by decide),
   (c7_item_pruning.2 1 [0] ⟨0, false⟩ [] stateF (by decide) (by decide) (by decide)).1⟩

-- ### Solver::add_support_constraints (Solver.cc:1088-1115)

/-- Value of a literal under a raw assignment vector. -/
def valueIn (assigns : List LBool) (p : Lit) : LBool :=
  if p.sign then negLB (assigns.getD p.v LBool.lundef) else assigns.getD p.v LBool.lundef

/-- The clause vectors passed to addClause by Solver::add_support_constraints
for one transaction, in emission order.  num is the transaction variable,
lastTrans the item literals of the transaction, itemsL the item literals of
the current sub-database; seen[] is set exactly on the variables of
lastTrans (it is all-clear on entry, Solver.cc:987-990).  When verbosity is
1 the blocking clause (lastTrans or not-num) and the long clause
(num or the kept items) are also emitted; the binary clauses
(not-num or not-item), over items outside the transaction that are not
false, are emitted unconditionally. -/
def add_support_constraints (verbosity : Nat) (assigns : List LBool) (num : Nat)
    (lastTrans itemsL : List Lit) : List (List Lit) :=
  (if verbosity = 1 then [lastTrans ++ [mkLit num true]] else []) ++
  (if verbosity = 1 then
    [(itemsL.filter (fun it =>
        decide (it.v ∉ lastTrans.map Lit.v ∧ valueIn assigns it ≠ LBool.lfalse)))
      ++ [mkLit num false]]
   else []) ++
  itemsL.filterMap (fun it =>
    if it.v ∉ lastTrans.map Lit.v ∧ valueIn assigns it ≠ LBool.lfalse then
      some [mkLit num true, negLit it]
    else none)

theorem mem_ite_singleton {α : Type} {c : Prop} [Decidable c] {a cl : α} :
    (cl ∈ (if c then [a] else ([] : List α))) ↔ c ∧ cl = a := by
  split_ifs with h
  · simp [h]
  · simp [h]

/-- The assignment used by the C5 counterexample: items x0 and x1 undefined. -/
def csAssigns : List LBool := [LBool.lundef, LBool.lundef]

/-- C5 counterexample: for transaction variable q = 5 with item list [x0]
inside sub-database items [x0, x1], the emission depends on verbosity
(contradicting the claim), the claimed binary clause (not q or x0) for the
in-transaction remaining item x0 is not emitted, and what is emitted
binary-wise is (not q or not x1) for the item x1 outside the transaction. -/
theorem c5_support_counterexample :
    add_support_constraints 0 csAssigns 5 [⟨0, false⟩] [⟨0, false⟩, ⟨1, false⟩] ≠
      add_support_constraints 1 csAssigns 5 [⟨0, false⟩] [⟨0, false⟩, ⟨1, false⟩] ∧
    [mkLit 5 true, mkLit 0 false] ∉
      add_support_constraints 1 csAssigns 5 [⟨0, false⟩] [⟨0, false⟩, ⟨1, false⟩] ∧
    [mkLit 5 true, mkLit 0 false] ∉
      add_support_constraints 0 csAssigns 5 [⟨0, false⟩] [⟨0, false⟩, ⟨1, false⟩] ∧
    [mkLit 5 true, negLit ⟨1, false⟩] ∈
      add_support_constraints 1 csAssigns 5 [⟨0, false⟩] [⟨0, false⟩, ⟨1, false⟩] := by
  decide

/-- C5 (amended): for every transaction, the clauses emitted are exactly:
unconditionally, one binary clause (not q_t or not r) for each item r of the
sub-database that is outside the transaction and not assigned false; and,
only when verbosity = 1, additionally the blocking clause (I_t or not q_t)
and the clause (q_t or those same outside items, positive).  Together these
encode q_t iff no remaining item outside the transaction is chosen; the
emission does depend on the verbosity setting. -/
theorem c5_support_constraints_amended :
    ∀ (verbosity : Nat) (assigns : List LBool) (num : Nat) (lastTrans itemsL : List Lit)
      (cl : List Lit),
      cl ∈ add_support_constraints verbosity assigns num lastTrans itemsL ↔
        ((verbosity = 1 ∧ cl = lastTrans ++ [mkLit num true]) ∨
         (verbosity = 1 ∧ cl = (itemsL.filter (fun it =>
             decide (it.v ∉ lastTrans.map Lit.v ∧ valueIn assigns it ≠ LBool.lfalse)))
             ++ [mkLit num false]) ∨
         (∃ it, it ∈ itemsL ∧ it.v ∉ lastTrans.map Lit.v ∧
             valueIn assigns it ≠ LBool.lfalse ∧ cl = [mkLit num true, negLit it])) := by
  intro verbosity assigns num lastTrans itemsL cl
  have hf : ∀ it : Lit,
      ((if it.v ∉ lastTrans.map Lit.v ∧ valueIn assigns it ≠ LBool.lfalse then
          some [mkLit num true, negLit it] else none) = some cl) ↔
        (it.v ∉ lastTrans.map Lit.v ∧ valueIn assigns it ≠ LBool.lfalse ∧
          cl = [mkLit num true, negLit it]) := by
    intro it
    split_ifs with h
    · constructor
      · intro hc
        exact ⟨h.1, h.2, (Option.some_injective _ hc).symm⟩
      · intro hc
        rw [hc.2.2]
    · constructor
      · intro hc
        exact absurd hc (by simp)
      · intro hc
        exact absurd ⟨hc.1, hc.2.1⟩ h
  unfold add_support_constraints
  simp only [List.mem_append, mem_ite_singleton, List.mem_filterMap, hf]
  constructor
  · rintro ((h | h) | ⟨it, hit, h1, h2, h3⟩)
    · exact Or.inl h
    · exact Or.inr (Or.inl h)
    · exact Or.inr (Or.inr ⟨it, hit, h1, h2, h3⟩)
  · rintro (h | h | ⟨it, hit, h1, h2, h3⟩)
    · exact Or.inl (Or.inl h)
    · exact Or.inl (Or.inr h)
    · exact Or.inr ⟨it, hit, h1, h2, h3⟩

-- ### Solver::reduceDB (Solver.cc:570-587) and removeClause (Solver.cc:201)

/-- locked(c) (Solver.h): the clause is the reason of its first literal,
which is assigned true. -/
def locked (s : Solver) (cr : Nat) : Prop :=
  s.reasons.getD ((clauseLits s cr).getD 0 dLit).v none = some cr ∧
  valueLit s ((clauseLits s cr).getD 0 dLit) = LBool.ltrue

instance (s : Solver) (cr : Nat) : Decidable (locked s cr) := by
  unfold locked; infer_instance

/-- Solver::removeClause (Solver.cc:201): detach the clause (lazily, via
smudge: modelled by the mark filter in cleanAll), clear the reason of its
first literal when the clause is locked, and mark the clause removed. -/
def removeClause (cr : Nat) (s : Solver) : Solver :=
  let s1 := if locked s cr then
      { s with reasons := s.reasons.set ((clauseLits s cr).getD 0 dLit).v none }
    else s
  { s1 with arena := s1.arena.set cr ⟨(s1.arena.getD cr emptyClause).lits, true⟩ }

/-- Solver::reduceDB (Solver.cc:570): the guarding predicate is if (1), so
every clause of the clauses list is removed and the list ends up empty. -/
def reduceDB (s : Solver) : Solver :=
  { s.clauses.foldl (fun acc cr => removeClause cr acc) s with clauses := [] }

theorem removeClause_arena (cr : Nat) (s : Solver) :
    (removeClause cr s).arena =
      s.arena.set cr ⟨(s.arena.getD cr emptyClause).lits, true⟩ := by
  unfold removeClause
  split_ifs <;> rfl

theorem removeClause_arena_length (cr : Nat) (s : Solver) :
    (removeClause cr s).arena.length = s.arena.length := by
  rw [removeClause_arena]; simp

theorem removeClause_mark_mono (cr j : Nat) (s : Solver)
    (h : (s.arena.getD j emptyClause).mark = true) :
    ((removeClause cr s).arena.getD j emptyClause).mark = true := by
  rw [removeClause_arena]
  by_cases hj : cr = j
  · subst hj
    by_cases hlt : cr < s.arena.length
    · rw [getD_set_eq _ _ _ _ hlt]
    · rw [List.set_eq_of_length_le (by omega)]
      exact h
  · rw [getD_set_ne _ _ _ hj]
    exact h

theorem removeClause_mark_self (cr : Nat) (s : Solver) (h : cr < s.arena.length) :
    ((removeClause cr s).arena.getD cr emptyClause).mark = true := by
  rw [removeClause_arena, getD_set_eq _ _ _ _ h]

theorem foldl_removeClause_arena_length (L : List Nat) :
    ∀ (s : Solver),
      (L.foldl (fun acc cr => removeClause cr acc) s).arena.length = s.arena.length := by
  induction L with
  | nil => intro s; rfl
  | cons cr L ih =>
    intro s
    show (L.foldl _ (removeClause cr s)).arena.length = _
    rw [ih, removeClause_arena_length]

theorem foldl_removeClause_mark (L : List Nat) :
    ∀ (s : Solver) (j : Nat),
      ((j ∈ L ∧ j < s.arena.length) ∨ (s.arena.getD j emptyClause).mark = true) →
      ((L.foldl (fun acc cr => removeClause cr acc) s).arena.getD j emptyClause).mark
        = true := by
  induction L with
  | nil =>
    intro s j h
    rcases h with ⟨h1, _⟩ | h
    · exact absurd h1 (List.not_mem_nil j)
    · exact h
  | cons cr L ih =>
    intro s j h
    show ((L.foldl _ (removeClause cr s)).arena.getD j emptyClause).mark = true
    rcases h with ⟨h1, h2⟩ | h
    · rcases List.mem_cons.mp h1 with heq | hmem
      · subst heq
        exact ih _ j (Or.inr (removeClause_mark_self j s h2))
      · exact ih _ j (Or.inl ⟨hmem, by rwa [removeClause_arena_length]⟩)
    · exact ih _ j (Or.inr (removeClause_mark_mono cr j s h))

/-- C8: reduceDB unconditionally removes every clause in the clauses list:
the list is left empty, every listed clause is marked removed, and after the
watch-list cleanup at the start of the next propagate no watcher refers to
it any more (the lazy detach), regardless of size, activity or locked
status. -/
theorem c8_reduceDB_removes_all (s : Solver) :
    (reduceDB s).clauses = [] ∧
    (∀ cr ∈ s.clauses, cr < s.arena.length →
      ((reduceDB s).arena.getD cr emptyClause).mark = true) ∧
    (∀ cr ∈ s.clauses, cr < s.arena.length →
      ∀ l ∈ (cleanAll (reduceDB s)).watches, ∀ w ∈ l, w.cref ≠ cr) := by
  have hmark : ∀ cr ∈ s.clauses, cr < s.arena.length →
      ((reduceDB s).arena.getD cr emptyClause).mark = true := by
    intro cr hmem hlt
    exact foldl_removeClause_mark s.clauses s cr (Or.inl ⟨hmem, hlt⟩)
  refine ⟨rfl, hmark, ?_⟩
  intro cr hmem hlt l hl w hw heq
  unfold cleanAll at hl
  rcases List.mem_map.mp hl with ⟨l0, _, hfil⟩
  rw [← hfil] at hw
  have hkeep := List.of_mem_filter hw
  rw [heq] at hkeep
  rw [hmark cr hmem hlt] at hkeep
  simp at hkeep

/-- A state with one attached binary clause, for the reduceDB witness. -/
def stateG : Solver :=
  { assigns := [LBool.lundef, LBool.lundef], levels := [0, 0], reasons := [none, none]
    seen := [false, false], trail := [], trail_lim := [], qhead := 0
    totalWeight := 0, hu_wei := [0, 0], nbItems := 2, nbTrans := 0, min_supp := 0
    arena := [⟨[⟨0, false⟩, ⟨1, false⟩], false⟩], clauses := [0], learnts := []
    watches := [[], [⟨0, ⟨1, false⟩⟩], [], [⟨0, ⟨0, false⟩⟩]], items := []
    ok := true, diviser_state := 1 }

theorem c8_reduceDB_removes_all_witness :
    (reduceDB stateG).clauses = [] ∧
    ((reduceDB stateG).arena.getD 0 emptyClause).mark = true :=
  ⟨(c8_reduceDB_removes_all stateG).1,
   (c8_reduceDB_removes_all stateG).2.1 0 (by decide) (by decide)⟩

-- ### the entry of Solver::encodeGuidingPath (Solver.cc:923-937)

/-- seen[v] = 1. -/
def setSeen (s : Solver) (v : Nat) : Solver := { s with seen := s.seen.set v true }

/-- The head of Solver::encodeGuidingPath at position index: clear the items
list, return false at once when the guiding item's total weight wocc is below
the minimum support, otherwise enqueue the negations of
allItems[0..index-2] (marking them seen) and then allItems[index-1]
itself, before the sub-database encoding. -/
def encodeGuidingPathInit (wocc : List Int) (coopMin : Int) (allItems : List Lit)
    (index : Nat) (s : Solver) : Bool × Solver :=
  let s0 := { s with items := [] }
  let p := allItems.getD (index - 1) dLit
  if wocc.getD p.v 0 < coopMin then (false, s0)
  else
    let s1 := (allItems.take (index - 1)).foldl
        (fun acc l => setSeen (uncheckedEnqueue (negLit l) none acc) l.v) s0
    (true, uncheckedEnqueue (allItems.getD (index - 1) dLit) none s1)

theorem enqFold_trail_lim (ls : List Lit) :
    ∀ (s : Solver),
      (ls.foldl (fun acc l => setSeen (uncheckedEnqueue (negLit l) none acc) l.v) s).trail_lim
        = s.trail_lim := by
  induction ls with
  | nil => intro s; rfl
  | cons l rest ih =>
    intro s
    show (rest.foldl _ (setSeen (uncheckedEnqueue (negLit l) none s) l.v)).trail_lim = _
    rw [ih]
    rfl

theorem enqFold_trail (ls : List Lit) :
    ∀ (s : Solver),
      (ls.foldl (fun acc l => setSeen (uncheckedEnqueue (negLit l) none acc) l.v) s).trail
        = s.trail ++ ls.map negLit := by
  induction ls with
  | nil => intro s; simp
  | cons l rest ih =>
    intro s
    show (rest.foldl _ (setSeen (uncheckedEnqueue (negLit l) none s) l.v)).trail = _
    rw [ih]
    show s.trail ++ [negLit l] ++ rest.map negLit = _
    simp

theorem enqFold_fixed (ls : List Lit) :
    ∀ (s : Solver),
      (ls.foldl (fun acc l => setSeen (uncheckedEnqueue (negLit l) none acc) l.v) s).clauses
        = s.clauses ∧
      (ls.foldl (fun acc l => setSeen (uncheckedEnqueue (negLit l) none acc) l.v) s).arena
        = s.arena ∧
      (ls.foldl (fun acc l => setSeen (uncheckedEnqueue (negLit l) none acc) l.v) s).levels.length
        = s.levels.length := by
  induction ls with
  | nil => intro s; exact ⟨rfl, rfl, rfl⟩
  | cons l rest ih =>
    intro s
    rw [List.foldl_cons]
    have h := ih (setSeen (uncheckedEnqueue (negLit l) none s) l.v)
    refine ⟨h.1, h.2.1, ?_⟩
    rw [h.2.2]
    show (s.levels.set (negLit l).v (decisionLevel s)).length = _
    simp

theorem enqFold_levels_not_mem (ls : List Lit) :
    ∀ (s : Solver) (v : Nat) (d : Nat), v ∉ ls.map Lit.v →
      (ls.foldl (fun acc l => setSeen (uncheckedEnqueue (negLit l) none acc) l.v) s).levels.getD v d
        = s.levels.getD v d := by
  induction ls with
  | nil => intro s v d _; rfl
  | cons l rest ih =>
    intro s v d h
    have h1 : l.v ≠ v := fun hc => h (by simp [← hc])
    have h2 : v ∉ rest.map Lit.v := fun hc => h (by simp; right; simpa using hc)
    rw [List.foldl_cons, ih _ v d h2]
    show (s.levels.set (negLit l).v (decisionLevel s)).getD v d = _
    exact getD_set_ne _ _ _ h1

theorem enqFold_levels_mem (ls : List Lit) :
    ∀ (s : Solver), (∀ l ∈ ls, l.v < s.levels.length) →
      ∀ l ∈ ls,
        (ls.foldl (fun acc l => setSeen (uncheckedEnqueue (negLit l) none acc) l.v) s).levels.getD l.v 0
          = decisionLevel s := by
  induction ls with
  | nil => intro s _ l hl; exact absurd hl (List.not_mem_nil l)
  | cons q rest ih =>
    intro s hb l hl
    rw [List.foldl_cons]
    have hblen : ∀ x ∈ rest, x.v <
        (setSeen (uncheckedEnqueue (negLit q) none s) q.v).levels.length := by
      intro x hx
      show x.v < (s.levels.set (negLit q).v (decisionLevel s)).length
      simpa using hb x (List.mem_cons_of_mem _ hx)
    rcases List.mem_cons.mp hl with heq | hmem
    · subst heq
      by_cases hv : l.v ∈ rest.map Lit.v
      · rcases List.mem_map.mp hv with ⟨l2, hl2, hveq⟩
        have h3 := ih (setSeen (uncheckedEnqueue (negLit l) none s) l.v) hblen l2 hl2
        rw [hveq] at h3
        exact h3
      · rw [enqFold_levels_not_mem rest _ l.v 0 hv]
        show (s.levels.set (negLit l).v (decisionLevel s)).getD l.v 0 = decisionLevel s
        exact getD_set_eq _ _ _ _ (by simpa using hb l (List.mem_cons_self _ _))
    · exact ih (setSeen (uncheckedEnqueue (negLit q) none s) q.v) hblen l hmem

/-- C6: encodeGuidingPath returns false with no literal enqueued and no
clause added when the total weight wocc of the head item allItems[k-1] is
below min_supp; otherwise it enqueues the negations of
allItems[0],...,allItems[k-2] followed by allItems[k-1] itself, and every
one of these assignments is recorded at the current decision level, which
is 0 at the call sites. -/
theorem c6_guiding_path_entry (wocc : List Int) (coopMin : Int) (allItems : List Lit)
    (k : Nat) (s : Solver)
    (hb : ∀ l ∈ allItems, l.v < s.levels.length)
    (hk1 : 1 ≤ k) (hk2 : k ≤ allItems.length) :
    (wocc.getD (allItems.getD (k - 1) dLit).v 0 < coopMin →
      (encodeGuidingPathInit wocc coopMin allItems k s).1 = false ∧
      (encodeGuidingPathInit wocc coopMin allItems k s).2.trail = s.trail ∧
      (encodeGuidingPathInit wocc coopMin allItems k s).2.clauses = s.clauses ∧
      (encodeGuidingPathInit wocc coopMin allItems k s).2.arena = s.arena) ∧
    (¬ wocc.getD (allItems.getD (k - 1) dLit).v 0 < coopMin →
      (encodeGuidingPathInit wocc coopMin allItems k s).1 = true ∧
      (encodeGuidingPathInit wocc coopMin allItems k s).2.trail =
        s.trail ++ (allItems.take (k - 1)).map negLit ++ [allItems.getD (k - 1) dLit] ∧
      (encodeGuidingPathInit wocc coopMin allItems k s).2.trail_lim = s.trail_lim ∧
      (∀ i < k,
        (encodeGuidingPathInit wocc coopMin allItems k s).2.levels.getD
          (allItems.getD i dLit).v 0 = decisionLevel s)) := by
  have hmemD : ∀ i, i < allItems.length → allItems.getD i dLit ∈ allItems := by
    intro i hi
    rw [List.getD_eq_getElem _ _ hi]
    exact List.getElem_mem hi
  constructor
  · intro h
    unfold encodeGuidingPathInit
    rw [if_pos h]
    exact ⟨rfl, rfl, rfl, rfl⟩
  · intro h
    unfold encodeGuidingPathInit
    rw [if_neg h]
    set s0 : Solver := { s with items := [] } with hs0
    set t := (allItems.take (k - 1)).foldl
        (fun acc l => setSeen (uncheckedEnqueue (negLit l) none acc) l.v) s0 with ht
    have htrail : t.trail = s.trail ++ (allItems.take (k - 1)).map negLit := by
      rw [ht]; exact enqFold_trail _ s0
    have hlim : t.trail_lim = s.trail_lim := by
      rw [ht]; exact enqFold_trail_lim _ s0
    have hdl : decisionLevel t = decisionLevel s := by
      unfold decisionLevel; rw [hlim]
    have hlen : t.levels.length = s.levels.length := by
      rw [ht]; exact (enqFold_fixed _ s0).2.2
    have hb0 : ∀ l ∈ allItems.take (k - 1), l.v < s0.levels.length := by
      intro l hl
      exact hb l (List.mem_of_mem_take hl)
    have hpv : (allItems.getD (k - 1) dLit).v < t.levels.length := by
      rw [hlen]
      exact hb _ (hmemD (k - 1) (by omega))
    refine ⟨rfl, ?_, ?_, ?_⟩
    · show t.trail ++ [allItems.getD (k - 1) dLit] = _
      rw [htrail, List.append_assoc]
    · show t.trail_lim = s.trail_lim
      exact hlim
    · intro i hik
      show (t.levels.set (allItems.getD (k - 1) dLit).v (decisionLevel t)).getD
          (allItems.getD i dLit).v 0 = decisionLevel s
      by_cases hveq : (allItems.getD (k - 1) dLit).v = (allItems.getD i dLit).v
      · rw [← hveq, getD_set_eq _ _ _ _ hpv, hdl]
      · rw [getD_set_ne _ _ _ hveq]
        have hik2 : i < k - 1 := by
          by_contra hno
          have hieq : i = k - 1 := by omega
          rw [hieq] at hveq
          exact hveq rfl
        have hi1 : i < (allItems.take (k - 1)).length := by
          rw [List.length_take]; omega
        have hmemTake : allItems.getD i dLit ∈ allItems.take (k - 1) := by
          have hswap : (allItems.take (k - 1)).getD i dLit = allItems.getD i dLit := by
            rw [List.getD_eq_getElem _ _ hi1, List.getD_eq_getElem _ _ (by omega)]
            exact List.getElem_take _
          rw [← hswap, List.getD_eq_getElem _ _ hi1]
          exact List.getElem_mem hi1
        rw [ht]
        have := enqFold_levels_mem (allItems.take (k - 1)) s0 hb0 _ hmemTake
        rw [show decisionLevel s0 = decisionLevel s from rfl] at this
        exact this

/-- A two-item state with empty trail, for the guiding-path witness. -/
def stateH : Solver :=
  { assigns := [LBool.lundef, LBool.lundef], levels := [7, 7], reasons := [none, none]
    seen := [false, false], trail := [], trail_lim := [], qhead := 0
    totalWeight := 0, hu_wei := [0, 0], nbItems := 2, nbTrans := 0, min_supp := 0
    arena := [], clauses := [], learnts := [], watches := [], items := []
    ok := true, diviser_state := 1 }

theorem c6_guiding_path_entry_witness :
    ((encodeGuidingPathInit [5, 5] 3 [⟨0, false⟩, ⟨1, false⟩] 2 stateH).1 = true ∧
     (encodeGuidingPathInit [5, 5] 3 [⟨0, false⟩, ⟨1, false⟩] 2 stateH).2.trail =
       [⟨0, true⟩, ⟨1, false⟩] ∧
     (encodeGuidingPathInit [5, 5] 3 [⟨0, false⟩, ⟨1, false⟩] 2 stateH).2.levels.getD 1 0 = 0) ∧
    ((encodeGuidingPathInit [5, 5] 9 [⟨0, false⟩, ⟨1, false⟩] 2 stateH).1 = false ∧
     (encodeGuidingPathInit [5, 5] 9 [⟨0, false⟩, ⟨1, false⟩] 2 stateH).2.trail = []) := by
  constructor
  · have h := (c6_guiding_path_entry [5, 5] 3 [⟨0, false⟩, ⟨1, false⟩] 2 stateH
      (by decide) (by decide) (by decide)).2 (by decide)
    refine ⟨h.1, ?_, ?_⟩
    · rw [h.2.1]; rfl
    · have h2 := h.2.2.2 1 (by decide)
      simpa using h2
  · have h := (c6_guiding_path_entry [5, 5] 9 [⟨0, false⟩, ⟨1, false⟩] 2 stateH
      (by decide) (by decide) (by decide)).1 (by decide)
    exact ⟨h.1, h.2.1⟩

-- ### luby (Solver.cc:821-835)

/-- The first loop of luby (Solver.cc:826): starting from size 1, seq 0, grow
size to 2 size + 1 while size < x + 1.  gas bounds the number of iterations
(x + 1 suffices, since size grows strictly); the gas-0 fallback is never
reached from luby_seq. -/
def lubyUpAux : Nat → Nat → Nat → Nat → Nat × Nat
  | 0, _, size, seq => (size, seq)
  | Nat.succ gas, x, size, seq =>
    if size < x + 1 then lubyUpAux gas x (2 * size + 1) (seq + 1) else (size, seq)

/-- The second loop of luby (Solver.cc:828-832): while size - 1 is not x,
halve size, decrement seq and reduce x modulo the new size.  The recursion is
on seq; the seq-0 fallback is never reached, because when seq is 0 size is 1
and then x, smaller than size, is 0 = size - 1. -/
def lubyDown : Nat → Nat → Nat → Nat
  | seq, size, x =>
    if size - 1 = x then seq
    else
      match seq with
      | 0 => 0
      | Nat.succ s => lubyDown s ((size - 1) / 2) (x % ((size - 1) / 2))

/-- The exponent seq computed by luby (Solver.cc:821) for index x. -/
def luby_seq (x : Nat) : Nat :=
  let r := lubyUpAux (x + 1) x 1 0
  lubyDown r.2 r.1 x

/-- luby(y, x) of Solver.cc:821, with pow(y, seq) modelled as exact natural
exponentiation. -/
def luby (y x : Nat) : Nat := y ^ luby_seq x

/-- Modelled from the spec: the finite subsequences of the canonical Luby
sequence 1, 1, 2, 1, 1, 2, 4, ... recorded as exponents: S_0 = [0],
S_{k+1} = S_k ++ S_k ++ [k+1]; the sequence values are 2 to these entries. -/
def lubyList : Nat → List Nat
  | 0 => [0]
  | Nat.succ k => lubyList k ++ lubyList k ++ [k + 1]

theorem lubyList_length (k : Nat) : (lubyList k).length = 2 ^ (k + 1) - 1 := by
  induction k with
  | zero => rfl
  | succ k ih =>
    have h2 : 2 ^ (k + 2) = 2 * 2 ^ (k + 1) := by rw [pow_succ]; ring
    have h1 : 1 ≤ 2 ^ (k + 1) := Nat.one_le_two_pow
    simp [lubyList, ih]
    omega

theorem lubyList_length_mono {j k : Nat} (h : j ≤ k) :
    (lubyList j).length ≤ (lubyList k).length := by
  rw [lubyList_length, lubyList_length]
  have := Nat.pow_le_pow_right (show 1 ≤ 2 by omega) (Nat.succ_le_succ h)
  omega

/-- Each subsequence is an initial segment of the next, so getD is stable. -/
theorem lubyList_getD_stable (j : Nat) :
    ∀ (m x : Nat), x < (lubyList j).length →
      (lubyList (j + m)).getD x 0 = (lubyList j).getD x 0 := by
  intro m
  induction m with
  | zero => intro x _; rfl
  | succ m ih =>
    intro x hx
    show (lubyList ((j + m) + 1)).getD x 0 = _
    rw [lubyList]
    have hx2 : x < (lubyList (j + m)).length :=
      lt_of_lt_of_le hx (lubyList_length_mono (Nat.le_add_right j m))
    rw [List.append_assoc, List.getD_append _ _ _ _ hx2]
    exact ih x hx

theorem two_pow_succ_sub_one (k : Nat) : 2 ^ (k + 1) - 1 ≥ 1 := by
  have : 2 ≤ 2 ^ (k + 1) := by
    calc 2 = 2 ^ 1 := rfl
    _ ≤ 2 ^ (k + 1) := Nat.pow_le_pow_right (by omega) (by omega)
  omega

/-- The downward loop computes exactly the canonical subsequence entry. -/
theorem lubyDown_correct : ∀ (k x : Nat), x < 2 ^ (k + 1) - 1 →
    lubyDown k (2 ^ (k + 1) - 1) x = (lubyList k).getD x 0 := by
  intro k
  induction k with
  | zero =>
    intro x hx
    have hx0 : x = 0 := by simpa using hx
    subst hx0
    rfl
  | succ k ih =>
    intro x hx
    have h2 : 2 ^ (k + 2) = 2 * 2 ^ (k + 1) := by rw [pow_succ]; ring
    have hL1 : 2 ^ (k + 1) - 1 ≥ 1 := two_pow_succ_sub_one k
    have hlen : (lubyList k).length = 2 ^ (k + 1) - 1 := lubyList_length k
    rw [lubyDown]
    by_cases hb : (2 ^ (k + 2) - 1) - 1 = x
    · rw [if_pos hb]
      -- x is the last position 2 L, holding exponent k+1
      show k + 1 = (lubyList (k + 1)).getD x 0
      rw [lubyList, List.append_assoc]
      have hxL : (lubyList k).length ≤ x := by omega
      rw [List.getD_append_right _ _ _ _ hxL]
      have hxL2 : (lubyList k).length ≤ x - (lubyList k).length := by omega
      rw [List.getD_append_right _ _ _ _ hxL2]
      have : x - (lubyList k).length - (lubyList k).length = 0 := by omega
      rw [this]
      rfl
    · rw [if_neg hb]
      have hhalf : ((2 ^ (k + 2) - 1) - 1) / 2 = 2 ^ (k + 1) - 1 := by omega
      rw [hhalf]
      have hmod : x % (2 ^ (k + 1) - 1) < 2 ^ (k + 1) - 1 :=
        Nat.mod_lt _ (by omega)
      rw [ih _ hmod]
      rw [lubyList, List.append_assoc]
      by_cases hlow : x < (lubyList k).length
      · rw [List.getD_append _ _ _ _ hlow]
        have : x % (2 ^ (k + 1) - 1) = x := Nat.mod_eq_of_lt (by omega)
        rw [this]
      · have hxL : (lubyList k).length ≤ x := by omega
        rw [List.getD_append_right _ _ _ _ hxL]
        have hxlt : x - (lubyList k).length < (lubyList k).length := by omega
        rw [List.getD_append _ _ _ _ hxlt]
        have : x % (2 ^ (k + 1) - 1) = x - (2 ^ (k + 1) - 1) := by
          rw [Nat.mod_eq_sub_mod (by omega)]
          exact Nat.mod_eq_of_lt (by omega)
        rw [this, hlen]

/-- The upward loop maintains size = 2^(seq+1) - 1 and stops with x inside
the subsequence. -/
theorem lubyUpAux_inv : ∀ (gas x size seq : Nat), x + 1 - size ≤ gas →
    size = 2 ^ (seq + 1) - 1 →
    (lubyUpAux gas x size seq).1 = 2 ^ ((lubyUpAux gas x size seq).2 + 1) - 1 ∧
    x < (lubyUpAux gas x size seq).1 := by
  intro gas
  induction gas with
  | zero =>
    intro x size seq hg hs
    refine ⟨hs, ?_⟩
    show x < size
    omega
  | succ gas ih =>
    intro x size seq hg hs
    rw [lubyUpAux]
    by_cases h : size < x + 1
    · rw [if_pos h]
      apply ih
      · omega
      · have h2 : 2 ^ (seq + 2) = 2 * 2 ^ (seq + 1) := by rw [pow_succ]; ring
        have h1 : 1 ≤ 2 ^ (seq + 1) := Nat.one_le_two_pow
        omega
    · rw [if_neg h]
      exact ⟨hs, by omega⟩

theorem luby_seq_correct (x : Nat) :
    ∀ (k : Nat), x < (lubyList k).length → luby_seq x = (lubyList k).getD x 0 := by
  intro k hk
  have hinv := lubyUpAux_inv (x + 1) x 1 0 (by omega) (by rfl)
  unfold luby_seq
  dsimp only
  have hdown := lubyDown_correct (lubyUpAux (x + 1) x 1 0).2 x (by
    have h1 := hinv.1
    have h2 := hinv.2
    omega)
  rw [show (lubyUpAux (x + 1) x 1 0).1 = 2 ^ ((lubyUpAux (x + 1) x 1 0).2 + 1) - 1
      from hinv.1]
  rw [hdown]
  -- both indexes are in range, so getD agrees across subsequence levels
  have hx2 : x < (lubyList (lubyUpAux (x + 1) x 1 0).2).length := by
    rw [lubyList_length]
    have h1 := hinv.1
    have h2 := hinv.2
    omega
  rcases Nat.le_total k (lubyUpAux (x + 1) x 1 0).2 with hle | hle
  · obtain ⟨m, hm⟩ := Nat.le.dest hle
    rw [← hm]
    exact lubyList_getD_stable k m x hk
  · obtain ⟨m, hm⟩ := Nat.le.dest hle
    rw [← hm] at hk ⊢
    exact (lubyList_getD_stable _ m x hx2).symm

/-- C9: luby(y, x) is y raised to the exponent of the (x+1)-th element of the
canonical Luby sequence (the sequence whose finite stages are
S_0 = 1, S_{k+1} = S_k S_k 2^{k+1}); with base 2 the first fifteen values
are exactly 1,1,2,1,1,2,4,1,1,2,1,1,2,4,8. -/
theorem c9_luby_correct :
    (∀ (y x k : Nat), x < (lubyList k).length →
        luby y x = y ^ (lubyList k).getD x 0) ∧
    (List.range 15).map (luby 2) =
      [1, 1, 2, 1, 1, 2, 4, 1, 1, 2, 1, 1, 2, 4, 8] := by
  constructor
  · intro y x k hk
    unfold luby
    rw [luby_seq_correct x k hk]
  · decide

theorem c9_luby_correct_witness :
    6 < (lubyList 3).length ∧ luby 2 6 = 2 ^ (lubyList 3).getD 6 0 :=
  ⟨by decide, c9_luby_correct.1 2 6 3 (by decide)⟩

-- ### Solver::pickBranchLit (Solver.cc:259-278)

/-- Solver::pickBranchLit.  The order heap (mtl/Heap.h, outside src/) is
modelled from the spec as the sequence of variables its removeMin pops: pop
until an undefined decision variable is found; if the heap empties, return
lit_Undef (modelled none).  The returned literal is mkLit(next, false) - the
polarity argument of the original is commented out in the source. -/
def pickBranchLit (assigns : List LBool) (decision : List Bool) :
    List Nat → Option Lit
  | [] => none
  | v :: rest =>
    if assigns.getD v LBool.lundef = LBool.lundef ∧ decision.getD v false = true then
      some (mkLit v false)
    else pickBranchLit assigns decision rest

/-- C10: pickBranchLit returns lit_Undef exactly when the heap holds no
variable that is both undefined and a decision variable; otherwise it
returns the positive literal mkLit(v, false) of such a variable from the
heap - never a negative literal. -/
theorem c10_pickBranchLit :
    ∀ (assigns : List LBool) (decision : List Bool) (heap : List Nat),
      (pickBranchLit assigns decision heap = none ↔
        ∀ v ∈ heap, ¬(assigns.getD v LBool.lundef = LBool.lundef ∧
          decision.getD v false = true)) ∧
      (∀ l, pickBranchLit assigns decision heap = some l →
        l.sign = false ∧ assigns.getD l.v LBool.lundef = LBool.lundef ∧
        decision.getD l.v false = true ∧ l.v ∈ heap) := by
  intro assigns decision heap
  induction heap with
  | nil =>
    constructor
    · constructor
      · intro _ v hv; exact absurd hv (List.not_mem_nil v)
      · intro _; rfl
    · intro l hl; exact absurd hl (by simp [pickBranchLit])
  | cons v rest ih =>
    by_cases hv : assigns.getD v LBool.lundef = LBool.lundef ∧ decision.getD v false = true
    · constructor
      · constructor
        · intro hc
          rw [pickBranchLit, if_pos hv] at hc
          exact absurd hc (by simp)
        · intro hall
          exact absurd hv (hall v (List.mem_cons_self _ _))
      · intro l hl
        rw [pickBranchLit, if_pos hv] at hl
        have hlv : l = mkLit v false := by
          exact (Option.some_injective _ hl).symm
        subst hlv
        exact ⟨rfl, hv.1, hv.2, List.mem_cons_self _ _⟩
    · constructor
      · rw [pickBranchLit, if_neg hv]
        constructor
        · intro hc w hw
          rcases List.mem_cons.mp hw with heq | hmem
          · subst heq; exact hv
          · exact (ih.1.mp hc) w hmem
        · intro hall
          exact ih.1.mpr (fun w hw => hall w (List.mem_cons_of_mem _ hw))
      · intro l hl
        rw [pickBranchLit, if_neg hv] at hl
        have h := ih.2 l hl
        exact ⟨h.1, h.2.1, h.2.2.1, List.mem_cons_of_mem _ h.2.2.2⟩

theorem c10_pickBranchLit_witness :
    (mkLit 1 false).sign = false ∧
    [LBool.ltrue, LBool.lundef].getD (mkLit 1 false).v LBool.lundef = LBool.lundef ∧
    [true, true].getD (mkLit 1 false).v false = true ∧
    (mkLit 1 false).v ∈ [0, 1] :=
  (c10_pickBranchLit [LBool.ltrue, LBool.lundef] [true, true] [0, 1]).2
    (mkLit 1 false) (by decide)

end SATCHUIM
